import Mathlib

/-!
# Verification of the user-storage dependency-injection chain

This file is a shallow embedding of the layered user-storage pattern of the
repository: a mocked `localStorage` (a `Map<string, string>` with
`setItem`/`getItem`, where `getItem` returns `this.storage.get(key) || null`),
the `UserRepositoryService` (`saveUser` serializes its argument with
`JSON.stringify` under the fixed key `"LSuserDetails"` inside a `try`/`catch`
that converts a serialization throw into `false`; `getAllUsers` returns the raw
stored value), and the pass-through `BussinessService` and `UserController`
layers wired by constructor injection.

JavaScript runtime values are embedded as the inductive type `JSValue`.
Numbers are modelled by their integer fragment (`Int`), which covers every
numeric value appearing in the repository. `vFunc` stands for function values
(whose JSON serialization is `undefined`), and `vCyclic` stands for the
JS object graphs that an inductive type cannot represent and on which
`JSON.stringify` throws (circular structures). `JSON.stringify` itself is
modelled by `jsonStringify`, following the ECMAScript serialization algorithm
on this fragment: `undefined`/function at top level give `undefined`, inside an
object the field is skipped, inside an array the element serializes as `null`,
and a cyclic value anywhere makes the whole call throw. `JSON.parse` is
modelled by `jsonParse`, a recursive-descent parser for the (whitespace-free)
JSON texts that `jsonStringify` emits.
-/

/-- A JavaScript runtime value, as far as the embedded code can observe it. -/
inductive JSValue where
  | vNull
  | vUndefined
  | vBool (b : Bool)
  | vNum (n : Int)
  | vStr (s : String)
  | vArr (elems : List JSValue)
  | vObj (fields : List (String × JSValue))
  | vFunc (id : Nat)
  | vCyclic

/-- The character `\x7b` (left curly brace). -/
def lbrace : Char := Char.ofNat 123

/-- The character `\x7d` (right curly brace). -/
def rbrace : Char := Char.ofNat 125

/-- The decimal digit character for `d < 10`. -/
def digitChar (d : Nat) : Char := Char.ofNat (48 + d)

/-- Lowercase hexadecimal digit character for `d < 16`. -/
def hexDigit (d : Nat) : Char := if d < 10 then Char.ofNat (48 + d) else Char.ofNat (87 + d)

/-- `JSON.stringify` escaping of a single character inside a string literal
(ECMAScript `QuoteJSONString`): quote and backslash get a backslash escape, the
named control characters get their short escapes, the remaining control
characters get a `\u00xx` escape, every other character is emitted verbatim. -/
def escapeChar (c : Char) : List Char :=
  if c = '\"' then ['\\', '\"']
  else if c = '\\' then ['\\', '\\']
  else if c = Char.ofNat 8 then ['\\', 'b']
  else if c = Char.ofNat 9 then ['\\', 't']
  else if c = Char.ofNat 10 then ['\\', 'n']
  else if c = Char.ofNat 12 then ['\\', 'f']
  else if c = Char.ofNat 13 then ['\\', 'r']
  else if c.toNat < 32 then ['\\', 'u', '0', '0', hexDigit (c.toNat / 16), hexDigit (c.toNat % 16)]
  else [c]

/-- Escape a whole character sequence. -/
def escChars : List Char → List Char
  | [] => []
  | c :: cs => escapeChar c ++ escChars cs

/-- A JSON string literal: quote, escaped characters, quote. -/
def quoteChars (cs : List Char) : List Char := '\"' :: (escChars cs ++ ['\"'])

/-- Little-endian decimal digits of `n` (fuel-driven so that it reduces by
`rfl`; `fuel > n` suffices). -/
def digitsLE : Nat → Nat → List Nat
  | 0, _ => []
  | fuel + 1, n => if n < 10 then [n] else n % 10 :: digitsLE fuel (n / 10)

/-- Decimal character representation of a natural number. -/
def natChars (n : Nat) : List Char := (digitsLE (n + 1) n).reverse.map digitChar

/-- Decimal character representation of an integer (the form `JSON.stringify`
emits for integral numbers). -/
def intChars (n : Int) : List Char :=
  if n < 0 then '-' :: natChars (-n).toNat else natChars n.toNat

/-- Join serialized items with commas. -/
def joinComma : List (List Char) → List Char
  | [] => []
  | [p] => p
  | p :: ps => p ++ ',' :: joinComma ps

mutual

/-- Core of the `JSON.stringify` model. `.error ()` means the call throws,
`.ok none` means the serialization is `undefined`, `.ok (some cs)` is the
serialized text. -/
def serV : JSValue → Except Unit (Option (List Char))
  | .vNull => .ok (some ['n', 'u', 'l', 'l'])
  | .vUndefined => .ok none
  | .vFunc _ => .ok none
  | .vCyclic => .error ()
  | .vBool true => .ok (some ['t', 'r', 'u', 'e'])
  | .vBool false => .ok (some ['f', 'a', 'l', 's', 'e'])
  | .vNum n => .ok (some (intChars n))
  | .vStr s => .ok (some (quoteChars s.data))
  | .vArr xs =>
    match serL xs with
    | .error e => .error e
    | .ok parts => .ok (some ('[' :: (joinComma parts ++ [']'])))
  | .vObj fs =>
    match serF fs with
    | .error e => .error e
    | .ok parts => .ok (some (lbrace :: (joinComma parts ++ [rbrace])))

/-- Serialize array elements; an element whose serialization is `undefined`
is emitted as `null`. -/
def serL : List JSValue → Except Unit (List (List Char))
  | [] => .ok []
  | x :: xs =>
    match serV x with
    | .error e => .error e
    | .ok none =>
      match serL xs with
      | .error e => .error e
      | .ok parts => .ok (['n', 'u', 'l', 'l'] :: parts)
    | .ok (some cs) =>
      match serL xs with
      | .error e => .error e
      | .ok parts => .ok (cs :: parts)

/-- Serialize object fields; a field whose value serializes to `undefined`
is skipped. -/
def serF : List (String × JSValue) → Except Unit (List (List Char))
  | [] => .ok []
  | (k, v) :: fs =>
    match serV v with
    | .error e => .error e
    | .ok none => serF fs
    | .ok (some cs) =>
      match serF fs with
      | .error e => .error e
      | .ok parts => .ok ((quoteChars k.data ++ ':' :: cs) :: parts)

end

/-- Outcome of `JSON.stringify`: a string, `undefined`, or a thrown error. -/
inductive StringifyResult where
  | ok (s : String)
  | undef
  | thrown

/-- The `JSON.stringify` model at the `String` boundary. -/
def jsonStringify (v : JSValue) : StringifyResult :=
  match serV v with
  | .error _ => .thrown
  | .ok none => .undef
  | .ok (some cs) => .ok ⟨cs⟩

/-- `true` when the list of object keys has no duplicate (JS objects cannot
have two fields with the same key). -/
def keysNodup : List String → Bool
  | [] => true
  | k :: ks => !(ks.contains k) && keysNodup ks

mutual

/-- The JSON-representable fragment of `JSValue`: no `undefined`, function,
or cyclic value anywhere, and no duplicate object keys. These are exactly the
plain-data values for which serialization is faithful. -/
def serializableV : JSValue → Bool
  | .vNull => true
  | .vBool _ => true
  | .vNum _ => true
  | .vStr _ => true
  | .vArr xs => serializableL xs
  | .vObj fs => keysNodup (fs.map Prod.fst) && serializableF fs
  | .vUndefined => false
  | .vFunc _ => false
  | .vCyclic => false

def serializableL : List JSValue → Bool
  | [] => true
  | x :: xs => serializableV x && serializableL xs

def serializableF : List (String × JSValue) → Bool
  | [] => true
  | (_, v) :: fs => serializableV v && serializableF fs

end

mutual

/-- `true` when the value contains a cyclic marker, i.e. `JSON.stringify`
throws on it. -/
def hasCyclicV : JSValue → Bool
  | .vCyclic => true
  | .vArr xs => hasCyclicL xs
  | .vObj fs => hasCyclicF fs
  | _ => false

def hasCyclicL : List JSValue → Bool
  | [] => false
  | x :: xs => hasCyclicV x || hasCyclicL xs

def hasCyclicF : List (String × JSValue) → Bool
  | [] => false
  | (_, v) :: fs => hasCyclicV v || hasCyclicF fs

end

/-! ## The mocked `localStorage` and the three layers -/

/-- The backing `Map<string, string>` of the mock `localStorage`, as an
insertion-ordered association list. The value type is `Option String` because
TypeScript types are erased at runtime: `setItem` can receive the `undefined`
that `JSON.stringify` returns on non-JSON inputs, and the map then stores
`undefined` (`none`). -/
abbrev Store := List (String × Option String)

/-- `Map.prototype.set`: update the entry in place if the key exists,
otherwise append a new entry. -/
def storageSet : Store → String → Option String → Store
  | [], k, v => [(k, v)]
  | (k', v') :: rest, k, v =>
    if k' = k then (k, v) :: rest else (k', v') :: storageSet rest k v

/-- `Map.prototype.get`: the stored value, or `none` when the key is absent. -/
def storageGet : Store → String → Option (Option String)
  | [], _ => none
  | (k', v) :: rest, k => if k' = k then some v else storageGet rest k

namespace localStorage

/-- `setItem(key, value) { this.storage.set(key, value); }` -/
def setItem (st : Store) (key : String) (value : Option String) : Store :=
  storageSet st key value

/-- `getItem(key) { return this.storage.get(key) || null; }` — the `||`
coerces every falsy lookup result (`undefined`, stored `undefined`, and the
empty string) to `null` (`none`). -/
def getItem (st : Store) (key : String) : Option String :=
  match storageGet st key with
  | some (some s) => if s = "" then none else some s
  | _ => none

end localStorage

/-- The fixed storage key used by `UserRepositoryService`. -/
def LSuserDetailsKey : String := "LSuserDetails"

namespace UserRepositoryService

/-- `getAllUsers() { return localStorage.getItem("LSuserDetails"); }` —
returns the raw stored value (a JS string) or `null`, as a `JSValue`. -/
def getAllUsers (st : Store) : JSValue :=
  match localStorage.getItem st LSuserDetailsKey with
  | some s => .vStr s
  | none => .vNull

/-- `saveUser`: `try { localStorage.setItem("LSuserDetails",
JSON.stringify(userDetails)); return true } catch (ex) { return false }`.
Returns the store after the call together with the boolean result. -/
def saveUser (st : Store) (userDetails : JSValue) : Store × Bool :=
  match jsonStringify userDetails with
  | .ok s => (localStorage.setItem st LSuserDetailsKey (some s), true)
  | .undef => (localStorage.setItem st LSuserDetailsKey none, true)
  | .thrown => (st, false)

end UserRepositoryService

namespace BussinessService

/-- `saveUser(userDetails) { return this.userRepository.saveUser(userDetails); }`
with the repository injected in `main` being `UserRepositoryService`. -/
def saveUser (st : Store) (userDetails : JSValue) : Store × Bool :=
  UserRepositoryService.saveUser st userDetails

/-- `getAllUsers() { return this.userRepository.getAllUsers(); }` -/
def getAllUsers (st : Store) : JSValue :=
  UserRepositoryService.getAllUsers st

end BussinessService

namespace UserController

/-- `saveUserData(userDetails) { return this.userBusinessService.saveUser(userDetails); }`
with the service injected in `main` being `BussinessService`. -/
def saveUserData (st : Store) (userDetails : JSValue) : Store × Bool :=
  BussinessService.saveUser st userDetails

/-- `getAllUserData() { return this.userBusinessService.getAllUsers(); }` -/
def getAllUserData (st : Store) : JSValue :=
  BussinessService.getAllUsers st

end UserController

/-- One externally invocable operation of the repository API. -/
inductive Op where
  | save (r : JSValue)
  | getAll

/-- State transition of one operation (`getAllUsers` does not change the
store). -/
def stepOp (st : Store) : Op → Store
  | .save r => (UserRepositoryService.saveUser st r).1
  | .getAll => st

/-- Run a sequence of operations. -/
def runOps (st : Store) : List Op → Store
  | [] => st
  | op :: ops => runOps (stepOp st op) ops

/-! ## The `JSON.parse` model -/

/-- Value of a hexadecimal digit character, if it is one. -/
def hexVal (c : Char) : Option Nat :=
  if 48 ≤ c.toNat ∧ c.toNat ≤ 57 then some (c.toNat - 48)
  else if 97 ≤ c.toNat ∧ c.toNat ≤ 102 then some (c.toNat - 87)
  else if 65 ≤ c.toNat ∧ c.toNat ≤ 70 then some (c.toNat - 55)
  else none

/-- Parse the body of a JSON string literal (after the opening quote), up to
and including the closing quote. Returns the unescaped characters and the
remaining input. Unescaped control characters are rejected, as in
`JSON.parse`. -/
def parseStringBody : List Char → Option (List Char × List Char)
  | [] => none
  | c :: cs =>
    if c = '\"' then some ([], cs)
    else if c = '\\' then
      match cs with
      | [] => none
      | e :: cs2 =>
        if e = '\"' then (parseStringBody cs2).map (fun p => ('\"' :: p.1, p.2))
        else if e = '\\' then (parseStringBody cs2).map (fun p => ('\\' :: p.1, p.2))
        else if e = '/' then (parseStringBody cs2).map (fun p => ('/' :: p.1, p.2))
        else if e = 'b' then (parseStringBody cs2).map (fun p => (Char.ofNat 8 :: p.1, p.2))
        else if e = 't' then (parseStringBody cs2).map (fun p => (Char.ofNat 9 :: p.1, p.2))
        else if e = 'n' then (parseStringBody cs2).map (fun p => (Char.ofNat 10 :: p.1, p.2))
        else if e = 'f' then (parseStringBody cs2).map (fun p => (Char.ofNat 12 :: p.1, p.2))
        else if e = 'r' then (parseStringBody cs2).map (fun p => (Char.ofNat 13 :: p.1, p.2))
        else if e = 'u' then
          match cs2 with
          | h1 :: h2 :: h3 :: h4 :: cs3 =>
            match hexVal h1, hexVal h2, hexVal h3, hexVal h4 with
            | some a, some b, some c', some d =>
              (parseStringBody cs3).map
                (fun p => (Char.ofNat (4096 * a + 256 * b + 16 * c' + d) :: p.1, p.2))
            | _, _, _, _ => none
          | _ => none
        else none
    else if c.toNat < 32 then none
    else (parseStringBody cs).map (fun p => (c :: p.1, p.2))

/-- Parse a maximal run of decimal digits, big-endian, onto an accumulator. -/
def parseDigits : List Char → Nat → Nat × List Char
  | [], acc => (acc, [])
  | c :: cs, acc =>
    if c.isDigit then parseDigits cs (10 * acc + (c.toNat - 48)) else (acc, c :: cs)

mutual

/-- Recursive-descent parser for the whitespace-free JSON texts produced by
`jsonStringify`. The fuel bounds the nesting depth. -/
def parseVal : Nat → List Char → Option (JSValue × List Char)
  | 0, _ => none
  | _ + 1, [] => none
  | fuel + 1, c :: cs =>
    if c = 'n' then
      match cs with
      | 'u' :: 'l' :: 'l' :: rest => some (.vNull, rest)
      | _ => none
    else if c = 't' then
      match cs with
      | 'r' :: 'u' :: 'e' :: rest => some (.vBool true, rest)
      | _ => none
    else if c = 'f' then
      match cs with
      | 'a' :: 'l' :: 's' :: 'e' :: rest => some (.vBool false, rest)
      | _ => none
    else if c = '\"' then
      (parseStringBody cs).map (fun p => (.vStr ⟨p.1⟩, p.2))
    else if c = '[' then
      match cs with
      | [] => none
      | c2 :: cs2 =>
        if c2 = ']' then some (.vArr [], cs2)
        else (parseElems fuel (c2 :: cs2)).map (fun p => (.vArr p.1, p.2))
    else if c = lbrace then
      match cs with
      | [] => none
      | c2 :: cs2 =>
        if c2 = rbrace then some (.vObj [], cs2)
        else (parseFields fuel (c2 :: cs2)).map (fun p => (.vObj p.1, p.2))
    else if c = '-' then
      match cs with
      | [] => none
      | c2 :: cs2 =>
        if c2.isDigit then
          let p := parseDigits cs2 (c2.toNat - 48)
          some (.vNum (-(p.1 : Int)), p.2)
        else none
    else if c.isDigit then
      let p := parseDigits cs (c.toNat - 48)
      some (.vNum (p.1 : Int), p.2)
    else none

/-- Parse one or more comma-separated array elements, up to and including the
closing bracket. -/
def parseElems : Nat → List Char → Option (List JSValue × List Char)
  | 0, _ => none
  | fuel + 1, cs =>
    (parseVal fuel cs).bind (fun p =>
      match p.2 with
      | [] => none
      | r :: rest2 =>
        if r = ',' then (parseElems fuel rest2).map (fun q => (p.1 :: q.1, q.2))
        else if r = ']' then some ([p.1], rest2)
        else none)

/-- Parse one or more comma-separated object fields, up to and including the
closing brace. -/
def parseFields : Nat → List Char → Option (List (String × JSValue) × List Char)
  | 0, _ => none
  | fuel + 1, cs =>
    match cs with
    | [] => none
    | q :: cs2 =>
      if q = '\"' then
        (parseStringBody cs2).bind (fun pk =>
          match pk.2 with
          | ':' :: rest2 =>
            (parseVal fuel rest2).bind (fun pv =>
              match pv.2 with
              | [] => none
              | r :: rest4 =>
                if r = ',' then
                  (parseFields fuel rest4).map (fun pf => ((⟨pk.1⟩, pv.1) :: pf.1, pf.2))
                else if r = rbrace then some ([(⟨pk.1⟩, pv.1)], rest4)
                else none)
          | _ => none)
      else none

end

/-- The `JSON.parse` model at the `String` boundary: the whole input must be
consumed. -/
def jsonParse (s : String) : Option JSValue :=
  match parseVal (s.data.length + 1) s.data with
  | some (v, []) => some v
  | _ => none

/-! ## Measures, digit values, and concrete data -/

/-- Value of a little-endian decimal digit list. -/
def ofDigitsLE : List Nat → Nat
  | [] => 0
  | d :: ds => d + 10 * ofDigitsLE ds

/-- `true` when the input does not begin with a decimal digit, so that a
freshly parsed number is not extended by the following text. -/
def noDigitHead : List Char → Bool
  | [] => true
  | c :: _ => !c.isDigit

mutual

/-- Parser fuel sufficient for a serialized value. -/
def jfuelV : JSValue → Nat
  | .vArr xs => 1 + jfuelL xs
  | .vObj fs => 1 + jfuelF fs
  | _ => 1

def jfuelL : List JSValue → Nat
  | [] => 0
  | x :: xs => 1 + jfuelV x + jfuelL xs

def jfuelF : List (String × JSValue) → Nat
  | [] => 0
  | (_, v) :: fs => 1 + jfuelV v + jfuelF fs

end

/-! ## Concrete records and derived notions -/

/-- The record saved in the demo (`main`): `\x7bid: 1, name: "John Doe",
email: "john@example.com"\x7d`. -/
def johnDoeRecord : JSValue :=
  .vObj [("id", .vNum 1), ("name", .vStr "John Doe"), ("email", .vStr "john@example.com")]

/-- The second record of the spec scenario: `\x7bid: 2, name: "Jane"\x7d`. -/
def janeRecord : JSValue := .vObj [("id", .vNum 2), ("name", .vStr "Jane")]

/-- `JSON.stringify` of `johnDoeRecord`. -/
def johnDoeJson : String := "\x7b\"id\":1,\"name\":\"John Doe\",\"email\":\"john@example.com\"\x7d"

/-- `JSON.stringify` of `janeRecord`. -/
def janeJson : String := "\x7b\"id\":2,\"name\":\"Jane\"\x7d"

/-- A record containing a circular structure. -/
def cyclicRecord : JSValue := .vObj [("self", .vCyclic)]

/-- The map value a successful `saveUser` stores for its argument: the
serialized string, or the `undefined` (`none`) that `JSON.stringify` returns
on non-JSON inputs. -/
def serializedForStore (R : JSValue) : Option String :=
  match jsonStringify R with
  | .ok s => some s
  | _ => none

/-- The store holds at most the single fixed key. -/
def InvStore (st : Store) : Prop :=
  st = [] ∨ ∃ v, st = [(LSuserDetailsKey, v)]


/-! ## Auxiliary lemmas: characters and decimal digits -/

theorem toNat_charOfNat {n : Nat} (h : n < 55296) : (Char.ofNat n).toNat = n := by
  have hv : n.isValidChar := Or.inl h
  rw [Char.ofNat, dif_pos hv]
  simp [Char.ofNatAux, Char.toNat, UInt32.toNat]

theorem isDigit_iff {c : Char} : c.isDigit = true ↔ 48 ≤ c.toNat ∧ c.toNat ≤ 57 := by
  simp [Char.isDigit, UInt32.le_def, BitVec.le_def, Char.toNat, UInt32.toNat]

theorem digitChar_isDigit {d : Nat} (h : d < 10) : (digitChar d).isDigit = true := by
  rw [isDigit_iff, digitChar, toNat_charOfNat (by omega)]
  omega

theorem digitChar_toNat {d : Nat} (h : d < 10) : (digitChar d).toNat = 48 + d := by
  rw [digitChar, toNat_charOfNat (by omega)]

theorem char_ne_of_toNat_ne {c d : Char} (h : c.toNat ≠ d.toNat) : c ≠ d :=
  fun he => h (congrArg Char.toNat he)

theorem digitsLE_lt {fuel n : Nat} (h : n < fuel) : ∀ d ∈ digitsLE fuel n, d < 10 := by
  induction fuel generalizing n with
  | zero => omega
  | succ f ih =>
    intro d hd
    rw [digitsLE] at hd
    by_cases h10 : n < 10
    · rw [if_pos h10] at hd
      simp only [List.mem_singleton] at hd
      omega
    · rw [if_neg h10] at hd
      rcases List.mem_cons.mp hd with h1 | h2
      · omega
      · exact ih (by omega) d h2

theorem digitsLE_ne_nil {fuel n : Nat} (h : n < fuel) : digitsLE fuel n ≠ [] := by
  cases fuel with
  | zero => omega
  | succ f =>
    rw [digitsLE]
    by_cases h10 : n < 10
    · rw [if_pos h10]; simp
    · rw [if_neg h10]; simp

theorem ofDigitsLE_digitsLE {fuel n : Nat} (h : n < fuel) :
    ofDigitsLE (digitsLE fuel n) = n := by
  induction fuel generalizing n with
  | zero => omega
  | succ f ih =>
    rw [digitsLE]
    by_cases h10 : n < 10
    · rw [if_pos h10]
      simp [ofDigitsLE]
    · rw [if_neg h10]
      rw [ofDigitsLE, ih (by omega)]
      omega

theorem foldl_reverse_ofDigitsLE (ds : List Nat) (acc : Nat) :
    ds.reverse.foldl (fun a d => 10 * a + d) acc = acc * 10 ^ ds.length + ofDigitsLE ds := by
  induction ds generalizing acc with
  | nil => simp [ofDigitsLE]
  | cons d ds ih =>
    rw [List.reverse_cons, List.foldl_append, ih]
    simp only [List.foldl_cons, List.foldl_nil, ofDigitsLE, List.length_cons]
    ring

/-- The big-endian decimal digits of `m`: nonempty, all below 10, and folding
them back up recovers `m`. -/
theorem natChars_cons (m : Nat) :
    ∃ (d : Nat) (ds : List Nat),
      natChars m = digitChar d :: ds.map digitChar ∧ d < 10 ∧ (∀ x ∈ ds, x < 10) ∧
      ds.foldl (fun a x => 10 * a + x) d = m := by
  have hne : digitsLE (m + 1) m ≠ [] := digitsLE_ne_nil (by omega)
  have hlt : ∀ x ∈ digitsLE (m + 1) m, x < 10 := digitsLE_lt (by omega)
  obtain ⟨d, ds, hrev⟩ : ∃ d ds, (digitsLE (m + 1) m).reverse = d :: ds := by
    cases hr : (digitsLE (m + 1) m).reverse with
    | nil => exact absurd (by simpa using congrArg List.reverse hr) hne
    | cons d ds => exact ⟨d, ds, rfl⟩
  refine ⟨d, ds, ?_, ?_, ?_, ?_⟩
  · rw [natChars, hrev, List.map_cons]
  · have : d ∈ (digitsLE (m + 1) m).reverse := by rw [hrev]; exact List.mem_cons_self d ds
    exact hlt d (List.mem_reverse.mp this)
  · intro x hx
    have : x ∈ (digitsLE (m + 1) m).reverse := by rw [hrev]; exact List.mem_cons_of_mem d hx
    exact hlt x (List.mem_reverse.mp this)
  · have h0 : (d :: ds).foldl (fun a x => 10 * a + x) 0 = m := by
      rw [← hrev, foldl_reverse_ofDigitsLE, ofDigitsLE_digitsLE (by omega)]
      omega
    simpa using h0

theorem parseDigits_append {ds : List Nat} (hds : ∀ d ∈ ds, d < 10) {rest : List Char}
    (hrest : noDigitHead rest = true) (acc : Nat) :
    parseDigits (ds.map digitChar ++ rest) acc = (ds.foldl (fun a d => 10 * a + d) acc, rest) := by
  induction ds generalizing acc with
  | nil =>
    cases rest with
    | nil => rfl
    | cons c cs =>
      rw [noDigitHead, Bool.not_eq_true'] at hrest
      simp [parseDigits, hrest]
  | cons d ds ih =>
    have hd : d < 10 := hds d (List.mem_cons_self d ds)
    rw [List.map_cons, List.cons_append, parseDigits, if_pos (digitChar_isDigit hd),
      digitChar_toNat hd]
    rw [ih (fun x hx => hds x (List.mem_cons_of_mem d hx))]
    simp only [List.foldl_cons]
    congr 2
    omega

/-! ## String escaping round trip -/

theorem hexVal_hexDigit {d : Nat} (h : d < 16) : hexVal (hexDigit d) = some d := by
  by_cases h10 : d < 10
  · rw [hexDigit, if_pos h10]
    simp only [hexVal, toNat_charOfNat (show 48 + d < 55296 by omega)]
    rw [if_pos (by omega)]
    congr 1
    omega
  · rw [hexDigit, if_neg h10]
    simp only [hexVal, toNat_charOfNat (show 87 + d < 55296 by omega)]
    rw [if_neg (by omega), if_pos (by omega)]
    congr 1
    omega

theorem parseStringBody_escChars (cs rest : List Char) :
    parseStringBody (escChars cs ++ '\"' :: rest) = some (cs, rest) := by
  induction cs with
  | nil =>
    rw [escChars, List.nil_append, parseStringBody.eq_def]
    simp
  | cons c cs ih =>
    rw [escChars, List.append_assoc]
    by_cases h1 : c = '\"'
    · subst h1
      simp only [escapeChar, if_pos rfl, List.cons_append, List.nil_append]
      rw [parseStringBody.eq_def]
      simp [ih]
    · by_cases h2 : c = '\\'
      · subst h2
        simp only [escapeChar]
        norm_num
        rw [parseStringBody.eq_def]
        simp [ih]
      · by_cases h3 : c = Char.ofNat 8
        · subst h3
          simp only [escapeChar]
          norm_num
          rw [parseStringBody.eq_def]
          simp [ih]
        · by_cases h4 : c = Char.ofNat 9
          · subst h4
            simp only [escapeChar]
            norm_num
            rw [parseStringBody.eq_def]
            simp [ih]
          · by_cases h5 : c = Char.ofNat 10
            · subst h5
              simp only [escapeChar]
              norm_num
              rw [parseStringBody.eq_def]
              simp [ih]
            · by_cases h6 : c = Char.ofNat 12
              · subst h6
                simp only [escapeChar]
                norm_num
                rw [parseStringBody.eq_def]
                simp [ih]
              · by_cases h7 : c = Char.ofNat 13
                · subst h7
                  simp only [escapeChar]
                  norm_num
                  rw [parseStringBody.eq_def]
                  simp [ih]
                · by_cases h8 : c.toNat < 32
                  · rw [escapeChar, if_neg h1, if_neg h2, if_neg h3, if_neg h4, if_neg h5,
                      if_neg h6, if_neg h7, if_pos h8]
                    have hhi : c.toNat / 16 < 16 := by omega
                    have hlo : c.toNat % 16 < 16 := by omega
                    simp only [List.cons_append, List.nil_append]
                    rw [parseStringBody.eq_def]
                    simp [hexVal_hexDigit hhi, hexVal_hexDigit hlo,
                      show hexVal '0' = some 0 from rfl, ih]
                    rw [show 16 * (c.toNat / 16) + c.toNat % 16 = c.toNat from by omega]
                    exact Char.ofNat_toNat c
                  · rw [escapeChar, if_neg h1, if_neg h2, if_neg h3, if_neg h4, if_neg h5,
                      if_neg h6, if_neg h7, if_neg h8]
                    simp only [List.cons_append, List.nil_append]
                    rw [parseStringBody.eq_def]
                    simp [if_neg h1, if_neg h2, if_neg h8, ih]

/-! ## Serializable values serialize successfully -/

mutual

theorem serOkV : ∀ R : JSValue, serializableV R = true → ∃ cs, serV R = .ok (some cs)
  | .vNull, _ => ⟨_, rfl⟩
  | .vBool true, _ => ⟨_, rfl⟩
  | .vBool false, _ => ⟨_, rfl⟩
  | .vNum _, _ => ⟨_, rfl⟩
  | .vStr _, _ => ⟨_, rfl⟩
  | .vArr xs, h => by
    obtain ⟨parts, hp, _⟩ := serOkL xs (by simpa [serializableV] using h)
    refine ⟨'[' :: (joinComma parts ++ [']']), ?_⟩
    simp [serV, hp]
  | .vObj fs, h => by
    have h2 : serializableF fs = true := by
      rw [serializableV, Bool.and_eq_true] at h
      exact h.2
    obtain ⟨parts, hp, _⟩ := serOkF fs h2
    refine ⟨lbrace :: (joinComma parts ++ [rbrace]), ?_⟩
    simp [serV, hp]

theorem serOkL : ∀ xs : List JSValue, serializableL xs = true →
    ∃ parts, serL xs = .ok parts ∧ parts.length = xs.length
  | [], _ => ⟨[], rfl, rfl⟩
  | x :: xs, h => by
    rw [serializableL, Bool.and_eq_true] at h
    obtain ⟨cs, hx⟩ := serOkV x h.1
    obtain ⟨parts, hxs, hlen⟩ := serOkL xs h.2
    exact ⟨cs :: parts, by simp [serL, hx, hxs], by simp [hlen]⟩

theorem serOkF : ∀ fs : List (String × JSValue), serializableF fs = true →
    ∃ parts, serF fs = .ok parts ∧ parts.length = fs.length
  | [], _ => ⟨[], rfl, rfl⟩
  | (k, v) :: fs, h => by
    rw [serializableF, Bool.and_eq_true] at h
    obtain ⟨cs, hv⟩ := serOkV v h.1
    obtain ⟨parts, hfs, hlen⟩ := serOkF fs h.2
    exact ⟨(quoteChars k.data ++ ':' :: cs) :: parts, by simp [serF, hv, hfs], by simp [hlen]⟩

end

/-- The first character of a serialized value is never a closing bracket
(it is `n`, `t`, `f`, a quote, a digit, `-`, `[`, or an opening brace);
in particular the serialization is nonempty. -/
theorem serV_head {R : JSValue} {cs : List Char} (h : serializableV R = true)
    (hs : serV R = .ok (some cs)) : ∃ c cs2, cs = c :: cs2 ∧ c ≠ ']' := by
  cases R with
  | vNull =>
    simp [serV] at hs
    exact ⟨_, _, hs.symm, by decide⟩
  | vBool b =>
    cases b with
    | true =>
      simp [serV] at hs
      exact ⟨_, _, hs.symm, by decide⟩
    | false =>
      simp [serV] at hs
      exact ⟨_, _, hs.symm, by decide⟩
  | vNum n =>
    simp [serV] at hs
    rw [intChars] at hs
    by_cases hn : n < 0
    · rw [if_pos hn] at hs
      exact ⟨_, _, hs.symm, by decide⟩
    · rw [if_neg hn] at hs
      obtain ⟨d, ds, hnc, hd, _, _⟩ := natChars_cons n.toNat
      rw [hnc] at hs
      refine ⟨_, _, hs.symm, char_ne_of_toNat_ne ?_⟩
      rw [digitChar_toNat hd]
      show 48 + d ≠ 93
      omega
  | vStr s =>
    simp [serV, quoteChars] at hs
    exact ⟨_, _, hs.symm, by decide⟩
  | vArr xs =>
    rw [serV] at hs
    cases hL : serL xs with
    | error e => rw [hL] at hs; simp at hs
    | ok parts =>
      rw [hL] at hs
      simp at hs
      exact ⟨_, _, hs.symm, by decide⟩
  | vObj fs =>
    rw [serV] at hs
    cases hF : serF fs with
    | error e => rw [hF] at hs; simp at hs
    | ok parts =>
      rw [hF] at hs
      simp at hs
      exact ⟨_, _, hs.symm, by decide⟩
  | vUndefined => simp [serializableV] at h
  | vFunc i => simp [serializableV] at h
  | vCyclic => simp [serializableV] at h

/-! ## Fuel bounds: the parser fuel needed for a value is at most the length
of its serialization -/

mutual

theorem fuelBoundV : ∀ (R : JSValue) (cs : List Char), serializableV R = true →
    serV R = .ok (some cs) → jfuelV R ≤ cs.length
  | .vNull, cs, _, hs => by
    simp [serV] at hs
    rw [← hs]
    simp [jfuelV]
  | .vBool true, cs, _, hs => by
    simp [serV] at hs
    rw [← hs]
    simp [jfuelV]
  | .vBool false, cs, _, hs => by
    simp [serV] at hs
    rw [← hs]
    simp [jfuelV]
  | .vNum n, cs, _, hs => by
    simp [serV] at hs
    rw [show jfuelV (.vNum n) = 1 from rfl, ← hs, intChars]
    by_cases hn : n < 0
    · rw [if_pos hn]
      simp
    · rw [if_neg hn]
      obtain ⟨d, ds, hnc, _, _, _⟩ := natChars_cons n.toNat
      rw [hnc]
      simp
  | .vStr s, cs, _, hs => by
    simp [serV] at hs
    rw [show jfuelV (.vStr s) = 1 from rfl, ← hs, quoteChars]
    simp
  | .vArr xs, cs, h, hs => by
    have hser : serializableL xs = true := by simpa [serializableV] using h
    obtain ⟨parts, hp, _⟩ := serOkL xs hser
    rw [serV, hp] at hs
    simp at hs
    have hb := fuelBoundL xs parts hser hp
    rw [jfuelV, ← hs]
    simp only [List.length_cons, List.length_append, List.length_singleton]
    omega
  | .vObj fs, cs, h, hs => by
    have hser : serializableF fs = true := by
      rw [serializableV, Bool.and_eq_true] at h
      exact h.2
    obtain ⟨parts, hp, _⟩ := serOkF fs hser
    rw [serV, hp] at hs
    simp at hs
    have hb := fuelBoundF fs parts hser hp
    rw [jfuelV, ← hs]
    simp only [List.length_cons, List.length_append, List.length_singleton]
    omega
  | .vUndefined, cs, h, _ => by simp [serializableV] at h
  | .vFunc _, cs, h, _ => by simp [serializableV] at h
  | .vCyclic, cs, h, _ => by simp [serializableV] at h

theorem fuelBoundL : ∀ (xs : List JSValue) (parts : List (List Char)), serializableL xs = true →
    serL xs = .ok parts → jfuelL xs ≤ 1 + (joinComma parts).length
  | [], parts, _, hs => by
    rw [jfuelL]
    omega
  | x :: xs, parts, h, hs => by
    rw [serializableL, Bool.and_eq_true] at h
    obtain ⟨csx, hx⟩ := serOkV x h.1
    obtain ⟨parts2, hxs, hlen⟩ := serOkL xs h.2
    rw [serL, hx, hxs] at hs
    simp at hs
    have hbx := fuelBoundV x csx h.1 hx
    rw [jfuelL, ← hs]
    cases xs with
    | nil =>
      have : parts2 = [] := List.length_eq_zero.mp (by simp [hlen])
      subst this
      rw [joinComma]
      simp [jfuelL]
      omega
    | cons y ys =>
      obtain ⟨p, ps, hpp⟩ : ∃ p ps, parts2 = p :: ps := by
        cases parts2 with
        | nil => simp at hlen
        | cons p ps => exact ⟨p, ps, rfl⟩
      have hbxs := fuelBoundL (y :: ys) parts2 h.2 hxs
      subst hpp
      rw [show joinComma (csx :: p :: ps) = csx ++ ',' :: joinComma (p :: ps) from rfl]
      simp only [List.length_append, List.length_cons]
      omega

theorem fuelBoundF : ∀ (fs : List (String × JSValue)) (parts : List (List Char)),
    serializableF fs = true → serF fs = .ok parts → jfuelF fs ≤ 1 + (joinComma parts).length
  | [], parts, _, hs => by
    rw [jfuelF]
    omega
  | (k, v) :: fs, parts, h, hs => by
    rw [serializableF, Bool.and_eq_true] at h
    obtain ⟨csv, hv⟩ := serOkV v h.1
    obtain ⟨parts2, hfs, hlen⟩ := serOkF fs h.2
    rw [serF, hv, hfs] at hs
    simp at hs
    have hbv := fuelBoundV v csv h.1 hv
    rw [jfuelF, ← hs]
    cases fs with
    | nil =>
      have : parts2 = [] := List.length_eq_zero.mp (by simp [hlen])
      subst this
      rw [joinComma]
      simp [jfuelF, quoteChars]
      omega
    | cons g gs =>
      obtain ⟨p, ps, hpp⟩ : ∃ p ps, parts2 = p :: ps := by
        cases parts2 with
        | nil => simp at hlen
        | cons p ps => exact ⟨p, ps, rfl⟩
      have hbfs := fuelBoundF (g :: gs) parts2 h.2 hfs
      subst hpp
      rw [show joinComma ((quoteChars k.data ++ ':' :: csv) :: p :: ps)
          = (quoteChars k.data ++ ':' :: csv) ++ ',' :: joinComma (p :: ps) from rfl]
      simp only [List.length_append, List.length_cons]
      omega

end

/-! ## Parser round trip -/

theorem jfuelV_pos : ∀ R : JSValue, 1 ≤ jfuelV R
  | .vNull => Nat.le_refl 1
  | .vUndefined => Nat.le_refl 1
  | .vBool _ => Nat.le_refl 1
  | .vNum _ => Nat.le_refl 1
  | .vStr _ => Nat.le_refl 1
  | .vFunc _ => Nat.le_refl 1
  | .vCyclic => Nat.le_refl 1
  | .vArr xs => by rw [jfuelV]; omega
  | .vObj fs => by rw [jfuelV]; omega

theorem jfuelL_pos {xs : List JSValue} (h : xs ≠ []) : 1 ≤ jfuelL xs := by
  cases xs with
  | nil => exact absurd rfl h
  | cons x xs => rw [jfuelL]; omega

theorem jfuelF_pos {fs : List (String × JSValue)} (h : fs ≠ []) : 1 ≤ jfuelF fs := by
  cases fs with
  | nil => exact absurd rfl h
  | cons g fs => obtain ⟨k, v⟩ := g; rw [jfuelF]; omega

/-- A digit character is none of the characters that start another kind of
JSON token. -/
theorem digitChar_facts {d : Nat} (hd : d < 10) :
    digitChar d ≠ 'n' ∧ digitChar d ≠ 't' ∧ digitChar d ≠ 'f' ∧ digitChar d ≠ '\"' ∧
    digitChar d ≠ '[' ∧ digitChar d ≠ lbrace ∧ digitChar d ≠ '-' ∧ digitChar d ≠ ']' := by
  interval_cases d <;> exact (by decide)


/-! ## One-step unfolding lemmas for the parser -/

theorem parseVal_null {f : Nat} (cs : List Char) :
    parseVal (f + 1) ('n' :: 'u' :: 'l' :: 'l' :: cs) = some (.vNull, cs) := rfl

theorem parseVal_true {f : Nat} (cs : List Char) :
    parseVal (f + 1) ('t' :: 'r' :: 'u' :: 'e' :: cs) = some (.vBool true, cs) := rfl

theorem parseVal_false {f : Nat} (cs : List Char) :
    parseVal (f + 1) ('f' :: 'a' :: 'l' :: 's' :: 'e' :: cs) = some (.vBool false, cs) := rfl

theorem parseVal_quote {f : Nat} (cs : List Char) :
    parseVal (f + 1) ('\"' :: cs) = (parseStringBody cs).map (fun p => (.vStr ⟨p.1⟩, p.2)) := rfl

theorem parseVal_arrNil {f : Nat} (cs : List Char) :
    parseVal (f + 1) ('[' :: ']' :: cs) = some (.vArr [], cs) := rfl

theorem parseVal_arrCons {f : Nat} {c2 : Char} (cs2 : List Char) (hne : ¬ c2 = ']') :
    parseVal (f + 1) ('[' :: c2 :: cs2)
      = (parseElems f (c2 :: cs2)).map (fun p => (.vArr p.1, p.2)) := by
  show (if c2 = ']' then some (JSValue.vArr [], cs2)
    else (parseElems f (c2 :: cs2)).map (fun p => (JSValue.vArr p.1, p.2))) = _
  rw [if_neg hne]

theorem parseVal_objNil {f : Nat} (cs : List Char) :
    parseVal (f + 1) (lbrace :: rbrace :: cs) = some (.vObj [], cs) := rfl

theorem parseVal_objCons {f : Nat} {c2 : Char} (cs2 : List Char) (hne : ¬ c2 = rbrace) :
    parseVal (f + 1) (lbrace :: c2 :: cs2)
      = (parseFields f (c2 :: cs2)).map (fun p => (.vObj p.1, p.2)) := by
  show (if c2 = rbrace then some (JSValue.vObj [], cs2)
    else (parseFields f (c2 :: cs2)).map (fun p => (JSValue.vObj p.1, p.2))) = _
  rw [if_neg hne]

theorem parseVal_digit {f : Nat} {d : Nat} (hd : d < 10) (cs : List Char) :
    parseVal (f + 1) (digitChar d :: cs)
      = some (.vNum ((parseDigits cs d).1 : Int), (parseDigits cs d).2) := by
  interval_cases d <;> rfl

theorem parseVal_negNum {f : Nat} {d : Nat} (hd : d < 10) (cs : List Char) :
    parseVal (f + 1) ('-' :: digitChar d :: cs)
      = some (.vNum (-((parseDigits cs d).1 : Int)), (parseDigits cs d).2) := by
  interval_cases d <;> rfl

theorem parseElems_succ {f : Nat} (cs : List Char) :
    parseElems (f + 1) cs = (parseVal f cs).bind (fun p =>
      match p.2 with
      | [] => none
      | r :: rest2 =>
        if r = ',' then (parseElems f rest2).map (fun q => (p.1 :: q.1, q.2))
        else if r = ']' then some ([p.1], rest2)
        else none) := rfl

theorem parseFields_quote {f : Nat} (cs2 : List Char) :
    parseFields (f + 1) ('\"' :: cs2) = (parseStringBody cs2).bind (fun pk =>
      match pk.2 with
      | ':' :: rest2 =>
        (parseVal f rest2).bind (fun pv =>
          match pv.2 with
          | [] => none
          | r :: rest4 =>
            if r = ',' then
              (parseFields f rest4).map (fun pf => ((⟨pk.1⟩, pv.1) :: pf.1, pf.2))
            else if r = rbrace then some ([(⟨pk.1⟩, pv.1)], rest4)
            else none)
      | _ => none) := rfl

/-- Printer–parser round trip, jointly for values, array elements, and object
fields, by induction on the parser fuel. -/
theorem parseRT : ∀ fuel : Nat,
    (∀ (R : JSValue) (cs rest : List Char), serializableV R = true → serV R = .ok (some cs) →
      jfuelV R ≤ fuel → noDigitHead rest = true → parseVal fuel (cs ++ rest) = some (R, rest)) ∧
    (∀ (xs : List JSValue) (parts : List (List Char)) (rest : List Char),
      serializableL xs = true → serL xs = .ok parts → xs ≠ [] → jfuelL xs ≤ fuel →
      parseElems fuel (joinComma parts ++ ']' :: rest) = some (xs, rest)) ∧
    (∀ (fs : List (String × JSValue)) (parts : List (List Char)) (rest : List Char),
      serializableF fs = true → serF fs = .ok parts → fs ≠ [] → jfuelF fs ≤ fuel →
      parseFields fuel (joinComma parts ++ rbrace :: rest) = some (fs, rest))
  | 0 => by
    refine ⟨?_, ?_, ?_⟩
    · intro R cs rest hser hs hfuel hnd
      exact absurd hfuel (by have := jfuelV_pos R; omega)
    · intro xs parts rest hser hs hne hfuel
      exact absurd hfuel (by have := jfuelL_pos hne; omega)
    · intro fs parts rest hser hs hne hfuel
      exact absurd hfuel (by have := jfuelF_pos hne; omega)
  | fuel + 1 => by
    obtain ⟨ihV, ihL, ihF⟩ := parseRT fuel
    refine ⟨?_, ?_, ?_⟩
    · intro R cs rest hser hs hfuel hnd
      cases R with
      | vNull =>
        simp [serV] at hs
        subst hs
        exact parseVal_null rest
      | vBool b =>
        cases b with
        | true =>
          simp [serV] at hs
          subst hs
          exact parseVal_true rest
        | false =>
          simp [serV] at hs
          subst hs
          exact parseVal_false rest
      | vNum n =>
        simp [serV] at hs
        rw [intChars] at hs
        by_cases hn : n < 0
        · rw [if_pos hn] at hs
          obtain ⟨d, ds, hnc, hd, hds, hfold⟩ := natChars_cons (-n).toNat
          rw [hnc] at hs
          subst hs
          simp only [List.cons_append]
          rw [parseVal_negNum hd, parseDigits_append hds hnd, hfold,
            Int.toNat_of_nonneg (by omega), neg_neg]
        · rw [if_neg hn] at hs
          obtain ⟨d, ds, hnc, hd, hds, hfold⟩ := natChars_cons n.toNat
          rw [hnc] at hs
          subst hs
          simp only [List.cons_append]
          rw [parseVal_digit hd, parseDigits_append hds hnd, hfold,
            Int.toNat_of_nonneg (by omega)]
      | vStr s =>
        simp [serV] at hs
        rw [quoteChars] at hs
        subst hs
        simp only [List.cons_append, List.append_assoc, List.singleton_append, List.nil_append]
        rw [parseVal_quote, parseStringBody_escChars]
        rfl
      | vArr xs =>
        have hserL : serializableL xs = true := by simpa [serializableV] using hser
        obtain ⟨parts, hp, hlen⟩ := serOkL xs hserL
        rw [serV, hp] at hs
        simp at hs
        subst hs
        rw [jfuelV] at hfuel
        cases xs with
        | nil =>
          have hpnil : parts = [] := List.length_eq_zero.mp (by simp [hlen])
          subst hpnil
          rw [show ('[' :: (joinComma [] ++ [']'])) ++ rest = '[' :: ']' :: rest from rfl]
          exact parseVal_arrNil rest
        | cons x xs2 =>
          have hserC := hserL
          rw [serializableL, Bool.and_eq_true] at hserC
          obtain ⟨csx, hx⟩ := serOkV x hserC.1
          obtain ⟨parts2, hxs2, hlen2⟩ := serOkL xs2 hserC.2
          rw [serL, hx, hxs2] at hp
          simp at hp
          subst hp
          obtain ⟨c0, cs0, hcs0, hc0⟩ := serV_head hserC.1 hx
          subst hcs0
          have hE : parseElems fuel (joinComma ((c0 :: cs0) :: parts2) ++ ']' :: rest)
              = some (x :: xs2, rest) := by
            apply ihL (x :: xs2) ((c0 :: cs0) :: parts2) rest hserL
            · rw [serL, hx, hxs2]
            · simp
            · omega
          obtain ⟨t, ht⟩ : ∃ t, joinComma ((c0 :: cs0) :: parts2) ++ ']' :: rest = c0 :: t := by
            cases parts2 with
            | nil => exact ⟨cs0 ++ ']' :: rest, by simp [joinComma]⟩
            | cons p ps =>
              exact ⟨cs0 ++ ',' :: (joinComma (p :: ps) ++ ']' :: rest),
                by rw [show joinComma ((c0 :: cs0) :: p :: ps)
                    = (c0 :: cs0) ++ ',' :: joinComma (p :: ps) from rfl]
                   simp [List.append_assoc]⟩
          rw [ht] at hE
          simp only [List.cons_append, List.append_assoc, List.singleton_append, List.nil_append]
          rw [ht, parseVal_arrCons t hc0, hE]
          rfl
      | vObj fs =>
        have hserF : serializableF fs = true := by
          rw [serializableV, Bool.and_eq_true] at hser
          exact hser.2
        obtain ⟨parts, hp, hlen⟩ := serOkF fs hserF
        rw [serV, hp] at hs
        simp at hs
        subst hs
        rw [jfuelV] at hfuel
        cases fs with
        | nil =>
          have hpnil : parts = [] := List.length_eq_zero.mp (by simp [hlen])
          subst hpnil
          rw [show (lbrace :: (joinComma [] ++ [rbrace])) ++ rest = lbrace :: rbrace :: rest
            from rfl]
          exact parseVal_objNil rest
        | cons g fs2 =>
          obtain ⟨k, v⟩ := g
          have hserC := hserF
          rw [serializableF, Bool.and_eq_true] at hserC
          obtain ⟨csv, hv⟩ := serOkV v hserC.1
          obtain ⟨parts2, hfs2, hlen2⟩ := serOkF fs2 hserC.2
          rw [serF, hv, hfs2] at hp
          simp at hp
          subst hp
          have hE : parseFields fuel
              (joinComma ((quoteChars k.data ++ ':' :: csv) :: parts2) ++ rbrace :: rest)
              = some ((k, v) :: fs2, rest) := by
            apply ihF ((k, v) :: fs2) ((quoteChars k.data ++ ':' :: csv) :: parts2) rest hserF
            · rw [serF, hv, hfs2]
            · simp
            · omega
          obtain ⟨t, ht⟩ : ∃ t,
              joinComma ((quoteChars k.data ++ ':' :: csv) :: parts2) ++ rbrace :: rest
              = '\"' :: t := by
            cases parts2 with
            | nil =>
              exact ⟨(escChars k.data ++ ['\"']) ++ ':' :: csv ++ rbrace :: rest,
                by rw [show joinComma [quoteChars k.data ++ ':' :: csv]
                    = quoteChars k.data ++ ':' :: csv from rfl, quoteChars]
                   simp [List.append_assoc]⟩
            | cons p ps =>
              exact ⟨(escChars k.data ++ ['\"']) ++ ':' :: csv
                  ++ ',' :: (joinComma (p :: ps) ++ rbrace :: rest),
                by rw [show joinComma ((quoteChars k.data ++ ':' :: csv) :: p :: ps)
                    = (quoteChars k.data ++ ':' :: csv) ++ ',' :: joinComma (p :: ps) from rfl,
                    quoteChars]
                   simp [List.append_assoc]⟩
          rw [ht] at hE
          simp only [List.cons_append, List.append_assoc, List.singleton_append, List.nil_append]
          rw [ht, parseVal_objCons t (by decide), hE]
          rfl
      | vUndefined => simp [serializableV] at hser
      | vFunc i => simp [serializableV] at hser
      | vCyclic => simp [serializableV] at hser
    · intro xs parts rest hser hs hne hfuel
      cases xs with
      | nil => exact absurd rfl hne
      | cons x xs2 =>
        have hserC := hser
        rw [serializableL, Bool.and_eq_true] at hserC
        obtain ⟨csx, hx⟩ := serOkV x hserC.1
        obtain ⟨parts2, hxs2, hlen2⟩ := serOkL xs2 hserC.2
        rw [serL, hx, hxs2] at hs
        simp at hs
        subst hs
        rw [jfuelL] at hfuel
        cases xs2 with
        | nil =>
          have hpnil : parts2 = [] := List.length_eq_zero.mp (by simp [hlen2])
          subst hpnil
          have hV : parseVal fuel (csx ++ ']' :: rest) = some (x, ']' :: rest) :=
            ihV x csx (']' :: rest) hserC.1 hx (by omega) rfl
          rw [show joinComma [csx] = csx from rfl, parseElems_succ, hV]
          rfl
        | cons y ys =>
          obtain ⟨p, ps, hpp⟩ : ∃ p ps, parts2 = p :: ps := by
            cases parts2 with
            | nil => simp at hlen2
            | cons p ps => exact ⟨p, ps, rfl⟩
          subst hpp
          have hV : parseVal fuel (csx ++ ',' :: (joinComma (p :: ps) ++ ']' :: rest))
              = some (x, ',' :: (joinComma (p :: ps) ++ ']' :: rest)) :=
            ihV x csx _ hserC.1 hx (by omega) rfl
          have hE : parseElems fuel (joinComma (p :: ps) ++ ']' :: rest)
              = some (y :: ys, rest) :=
            ihL (y :: ys) (p :: ps) rest hserC.2 hxs2 (by simp) (by omega)
          rw [show joinComma (csx :: p :: ps) = csx ++ ',' :: joinComma (p :: ps) from rfl,
            List.append_assoc, List.cons_append, parseElems_succ, hV]
          simp only [Option.some_bind]
          simp [hE]
    · intro fs parts rest hser hs hne hfuel
      cases fs with
      | nil => exact absurd rfl hne
      | cons g fs2 =>
        obtain ⟨k, v⟩ := g
        have hserC := hser
        rw [serializableF, Bool.and_eq_true] at hserC
        obtain ⟨csv, hv⟩ := serOkV v hserC.1
        obtain ⟨parts2, hfs2, hlen2⟩ := serOkF fs2 hserC.2
        rw [serF, hv, hfs2] at hs
        simp at hs
        subst hs
        rw [jfuelF] at hfuel
        cases fs2 with
        | nil =>
          have hpnil : parts2 = [] := List.length_eq_zero.mp (by simp [hlen2])
          subst hpnil
          have hV : parseVal fuel (csv ++ rbrace :: rest) = some (v, rbrace :: rest) :=
            ihV v csv (rbrace :: rest) hserC.1 hv (by omega) rfl
          rw [show joinComma [quoteChars k.data ++ ':' :: csv]
              = quoteChars k.data ++ ':' :: csv from rfl, quoteChars]
          simp only [List.cons_append, List.append_assoc, List.singleton_append, List.nil_append]
          rw [parseFields_quote, parseStringBody_escChars]
          simp only [Option.some_bind]
          rw [hV]
          simp only [Option.some_bind]
          rfl
        | cons g2 gs =>
          obtain ⟨p, ps, hpp⟩ : ∃ p ps, parts2 = p :: ps := by
            cases parts2 with
            | nil => simp at hlen2
            | cons p ps => exact ⟨p, ps, rfl⟩
          subst hpp
          have hV : parseVal fuel (csv ++ ',' :: (joinComma (p :: ps) ++ rbrace :: rest))
              = some (v, ',' :: (joinComma (p :: ps) ++ rbrace :: rest)) :=
            ihV v csv _ hserC.1 hv (by omega) rfl
          have hE : parseFields fuel (joinComma (p :: ps) ++ rbrace :: rest)
              = some (g2 :: gs, rest) :=
            ihF (g2 :: gs) (p :: ps) rest hserC.2 hfs2 (by simp) (by omega)
          rw [show joinComma ((quoteChars k.data ++ ':' :: csv) :: p :: ps)
              = (quoteChars k.data ++ ':' :: csv) ++ ',' :: joinComma (p :: ps) from rfl,
            quoteChars]
          simp only [List.cons_append, List.append_assoc, List.singleton_append, List.nil_append]
          rw [parseFields_quote, parseStringBody_escChars]
          simp only [Option.some_bind]
          rw [hV]
          simp only [Option.some_bind]
          simp [hE]

/-- Round trip at the `String` boundary: parsing the `JSON.stringify` output
of a serializable value recovers the value. -/
theorem jsonParse_jsonStringify {R : JSValue} {s : String} (h : serializableV R = true)
    (hs : jsonStringify R = .ok s) : jsonParse s = some R := by
  obtain ⟨cs, hcs⟩ := serOkV R h
  rw [jsonStringify, hcs] at hs
  simp at hs
  subst hs
  rw [jsonParse]
  have hb : jfuelV R ≤ cs.length + 1 := Nat.le_succ_of_le (fuelBoundV R cs h hcs)
  have hrt := (parseRT (cs.length + 1)).1 R cs [] h hcs hb rfl
  rw [List.append_nil] at hrt
  rw [show (String.mk cs).data = cs from rfl, show (String.mk cs).data.length = cs.length
    from rfl, hrt]

/-! ## Storage lemmas -/

theorem storageGet_storageSet_self (st : Store) (k : String) (v : Option String) :
    storageGet (storageSet st k v) k = some v := by
  induction st with
  | nil => simp [storageSet, storageGet]
  | cons e rest ih =>
    obtain ⟨k', v'⟩ := e
    rw [storageSet]
    by_cases h : k' = k
    · rw [if_pos h, storageGet, if_pos rfl]
    · rw [if_neg h, storageGet, if_neg h, ih]

theorem storageSet_storageSet (st : Store) (k : String) (v1 v2 : Option String) :
    storageSet (storageSet st k v1) k v2 = storageSet st k v2 := by
  induction st with
  | nil => simp [storageSet]
  | cons e rest ih =>
    obtain ⟨k', v'⟩ := e
    rw [storageSet]
    by_cases h : k' = k
    · rw [if_pos h, storageSet, if_pos rfl, storageSet, if_pos h]
    · rw [if_neg h, storageSet, if_neg h, storageSet, if_neg h, ih]

/-- A serialization that is a string is never the empty string. -/
theorem serV_ok_ne_nil {R : JSValue} {cs : List Char} (hs : serV R = .ok (some cs)) :
    cs ≠ [] := by
  cases R with
  | vNull => simp [serV] at hs; simp [← hs]
  | vBool b => cases b <;> (simp [serV] at hs; simp [← hs])
  | vNum n =>
    simp [serV] at hs
    rw [intChars] at hs
    by_cases hn : n < 0
    · rw [if_pos hn] at hs; simp [← hs]
    · rw [if_neg hn] at hs
      obtain ⟨d, ds, hnc, _, _, _⟩ := natChars_cons n.toNat
      rw [hnc] at hs
      simp [← hs]
  | vStr s => simp [serV, quoteChars] at hs; simp [← hs]
  | vArr xs =>
    rw [serV] at hs
    cases hL : serL xs with
    | error e => rw [hL] at hs; simp at hs
    | ok parts => rw [hL] at hs; simp at hs; simp [← hs]
  | vObj fs =>
    rw [serV] at hs
    cases hF : serF fs with
    | error e => rw [hF] at hs; simp at hs
    | ok parts => rw [hF] at hs; simp at hs; simp [← hs]
  | vUndefined => simp [serV] at hs
  | vFunc i => simp [serV] at hs
  | vCyclic => simp [serV] at hs

/-! ## Cyclic values make `JSON.stringify` throw -/

mutual

theorem hasCyclic_serV_error : ∀ R : JSValue, hasCyclicV R = true → serV R = .error ()
  | .vCyclic, _ => rfl
  | .vArr xs, h => by
    have := hasCyclic_serL_error xs (by simpa [hasCyclicV] using h)
    rw [serV, this]
  | .vObj fs, h => by
    have := hasCyclic_serF_error fs (by simpa [hasCyclicV] using h)
    rw [serV, this]
  | .vNull, h => by simp [hasCyclicV] at h
  | .vUndefined, h => by simp [hasCyclicV] at h
  | .vBool _, h => by simp [hasCyclicV] at h
  | .vNum _, h => by simp [hasCyclicV] at h
  | .vStr _, h => by simp [hasCyclicV] at h
  | .vFunc _, h => by simp [hasCyclicV] at h

theorem hasCyclic_serL_error : ∀ xs : List JSValue, hasCyclicL xs = true → serL xs = .error ()
  | x :: xs, h => by
    rw [hasCyclicL, Bool.or_eq_true] at h
    rcases h with h | h
    · rw [serL, hasCyclic_serV_error x h]
    · rw [serL, hasCyclic_serL_error xs h]
      cases hx : serV x with
      | error e => rfl
      | ok o => cases o <;> rfl
  | [], h => by simp [hasCyclicL] at h

theorem hasCyclic_serF_error : ∀ fs : List (String × JSValue), hasCyclicF fs = true →
    serF fs = .error ()
  | (k, v) :: fs, h => by
    rw [hasCyclicF, Bool.or_eq_true] at h
    rcases h with h | h
    · rw [serF, hasCyclic_serV_error v h]
    · rw [serF, hasCyclic_serF_error fs h]
      cases hv : serV v with
      | error e => rfl
      | ok o => cases o <;> rfl
  | [], h => by simp [hasCyclicF] at h

end

/-- `JSON.stringify` throws exactly on the values containing a cycle. -/
theorem jsonStringify_thrown_of_hasCyclic {R : JSValue} (h : hasCyclicV R = true) :
    jsonStringify R = .thrown := by
  rw [jsonStringify, hasCyclic_serV_error R h]

/-! ## Support lemmas for the claims -/

theorem getItem_setItem_some {st : Store} {k : String} {s : String} (hne : s ≠ "") :
    localStorage.getItem (localStorage.setItem st k (some s)) k = some s := by
  rw [localStorage.getItem, localStorage.setItem, storageGet_storageSet_self]
  simp [hne]

theorem getItem_setItem_none (st : Store) (k : String) :
    localStorage.getItem (localStorage.setItem st k none) k = none := by
  rw [localStorage.getItem, localStorage.setItem, storageGet_storageSet_self]

theorem InvStore_step (st : Store) (op : Op) (h : InvStore st) : InvStore (stepOp st op) := by
  cases op with
  | getAll => exact h
  | save r =>
    rw [stepOp, UserRepositoryService.saveUser]
    cases hj : jsonStringify r with
    | thrown => exact h
    | ok s =>
      rcases h with h | ⟨v, h⟩ <;> subst h
      · exact Or.inr ⟨some s, rfl⟩
      · exact Or.inr ⟨some s, by simp [localStorage.setItem, storageSet]⟩
    | undef =>
      rcases h with h | ⟨v, h⟩ <;> subst h
      · exact Or.inr ⟨none, rfl⟩
      · exact Or.inr ⟨none, by simp [localStorage.setItem, storageSet]⟩

theorem runOps_inv : ∀ (ops : List Op) (st : Store), InvStore st → InvStore (runOps st ops)
  | [], _, h => h
  | op :: ops, st, h => runOps_inv ops _ (InvStore_step st op h)

/-! ## Claim theorems -/

/-- **C1**: for every serializable record `R` and every prior store state,
`Repository.saveUser R` returns `true`, and an immediately following
`getAllUsers` returns a value (the stored string) that JSON-parses back
to `R`. -/
theorem C1_saveUser_roundTrip (R : JSValue) (st : Store) (h : serializableV R = true) :
    (UserRepositoryService.saveUser st R).2 = true ∧
    ∃ s : String, UserRepositoryService.getAllUsers (UserRepositoryService.saveUser st R).1
        = .vStr s ∧ jsonParse s = some R := by
  obtain ⟨cs, hcs⟩ := serOkV R h
  have hj : jsonStringify R = .ok ⟨cs⟩ := by rw [jsonStringify, hcs]
  have hsave : UserRepositoryService.saveUser st R
      = (localStorage.setItem st LSuserDetailsKey (some ⟨cs⟩), true) := by
    rw [UserRepositoryService.saveUser, hj]
  have hne : (⟨cs⟩ : String) ≠ "" := fun he => serV_ok_ne_nil hcs (congrArg String.data he)
  refine ⟨by rw [hsave], ⟨cs⟩, ?_, jsonParse_jsonStringify h hj⟩
  rw [hsave]
  show UserRepositoryService.getAllUsers
    (localStorage.setItem st LSuserDetailsKey (some ⟨cs⟩)) = .vStr ⟨cs⟩
  rw [UserRepositoryService.getAllUsers, getItem_setItem_some hne]

/-- Witness for C1 at the demo record and the fresh store. -/
theorem C1_saveUser_roundTrip_witness :
    serializableV johnDoeRecord = true ∧
    ((UserRepositoryService.saveUser [] johnDoeRecord).2 = true ∧
      ∃ s : String, UserRepositoryService.getAllUsers
          (UserRepositoryService.saveUser [] johnDoeRecord).1 = .vStr s ∧
        jsonParse s = some johnDoeRecord) :=
  ⟨by decide, C1_saveUser_roundTrip johnDoeRecord [] (by decide)⟩

/-- **C2** as stated is false at its own concrete input: after saving
`johnDoeRecord` through the Controller on a fresh store, `getAllUserData`
returns the serialized string, which is *not* equal to the saved record. -/
theorem C2_counterexample :
    (UserController.saveUserData [] johnDoeRecord).2 = true ∧
    UserController.getAllUserData (UserController.saveUserData [] johnDoeRecord).1
      ≠ johnDoeRecord := by
  refine ⟨rfl, ?_⟩
  rw [show UserController.getAllUserData (UserController.saveUserData [] johnDoeRecord).1
    = .vStr johnDoeJson from rfl]
  intro h
  exact JSValue.noConfusion h

/-- **C2 (amended)**: the scenario holds with the read results being the JSON
serializations of the records: saving `johnDoeRecord` via the Controller on a
fresh store returns `true`; `getAllUserData` then returns the serialization of
`johnDoeRecord`; after saving `janeRecord`, `getAllUserData` returns only the
serialization of `janeRecord`. -/
theorem C2_scenario_serialized :
    (UserController.saveUserData [] johnDoeRecord).2 = true ∧
    UserController.getAllUserData (UserController.saveUserData [] johnDoeRecord).1
      = .vStr johnDoeJson ∧
    (UserController.saveUserData (UserController.saveUserData [] johnDoeRecord).1
        janeRecord).2 = true ∧
    UserController.getAllUserData
        (UserController.saveUserData (UserController.saveUserData [] johnDoeRecord).1
          janeRecord).1
      = .vStr janeJson :=
  ⟨rfl, rfl, rfl, rfl⟩

/-- **C3**: on an input containing a circular structure (the inputs on which
`JSON.stringify` throws), `saveUser` returns `false` rather than throwing, and
the store — in particular any prior value — is unchanged. -/
theorem C3_saveUser_cyclic (st : Store) (R : JSValue) (h : hasCyclicV R = true) :
    UserRepositoryService.saveUser st R = (st, false) := by
  rw [UserRepositoryService.saveUser, jsonStringify_thrown_of_hasCyclic h]

/-- Witness for C3: a cyclic record against a store holding a prior value. -/
theorem C3_saveUser_cyclic_witness :
    hasCyclicV cyclicRecord = true ∧
    UserRepositoryService.saveUser [(LSuserDetailsKey, some johnDoeJson)] cyclicRecord
      = ([(LSuserDetailsKey, some johnDoeJson)], false) :=
  ⟨by decide, C3_saveUser_cyclic [(LSuserDetailsKey, some johnDoeJson)] cyclicRecord (by decide)⟩

/-- **C4**: after two successful saves `R1` then `R2`, the store is exactly
what a single save of `R2` would produce, and the stored value under the fixed
key is the serialization of `R2` — last write wins, nothing of `R1` remains. -/
theorem C4_lastWriteWins (st : Store) (R1 R2 : JSValue)
    (h1 : (UserRepositoryService.saveUser st R1).2 = true)
    (h2 : (UserRepositoryService.saveUser (UserRepositoryService.saveUser st R1).1 R2).2
      = true) :
    (UserRepositoryService.saveUser (UserRepositoryService.saveUser st R1).1 R2).1
      = (UserRepositoryService.saveUser st R2).1 ∧
    storageGet (UserRepositoryService.saveUser (UserRepositoryService.saveUser st R1).1 R2).1
        LSuserDetailsKey = some (serializedForStore R2) := by
  cases hj1 : jsonStringify R1 with
  | thrown => simp [UserRepositoryService.saveUser, hj1] at h1
  | ok s1 =>
    cases hj2 : jsonStringify R2 with
    | thrown => simp [UserRepositoryService.saveUser, hj1, hj2] at h2
    | ok s2 =>
      constructor
      · simp [UserRepositoryService.saveUser, hj1, hj2, localStorage.setItem,
          storageSet_storageSet]
      · simp [UserRepositoryService.saveUser, hj1, hj2, localStorage.setItem,
          storageGet_storageSet_self, serializedForStore]
    | undef =>
      constructor
      · simp [UserRepositoryService.saveUser, hj1, hj2, localStorage.setItem,
          storageSet_storageSet]
      · simp [UserRepositoryService.saveUser, hj1, hj2, localStorage.setItem,
          storageGet_storageSet_self, serializedForStore]
  | undef =>
    cases hj2 : jsonStringify R2 with
    | thrown => simp [UserRepositoryService.saveUser, hj1, hj2] at h2
    | ok s2 =>
      constructor
      · simp [UserRepositoryService.saveUser, hj1, hj2, localStorage.setItem,
          storageSet_storageSet]
      · simp [UserRepositoryService.saveUser, hj1, hj2, localStorage.setItem,
          storageGet_storageSet_self, serializedForStore]
    | undef =>
      constructor
      · simp [UserRepositoryService.saveUser, hj1, hj2, localStorage.setItem,
          storageSet_storageSet]
      · simp [UserRepositoryService.saveUser, hj1, hj2, localStorage.setItem,
          storageGet_storageSet_self, serializedForStore]

/-- Witness for C4 at the two demo records on a fresh store. -/
theorem C4_lastWriteWins_witness :
    (UserRepositoryService.saveUser [] johnDoeRecord).2 = true ∧
    (UserRepositoryService.saveUser (UserRepositoryService.saveUser [] johnDoeRecord).1
        janeRecord).2 = true ∧
    ((UserRepositoryService.saveUser (UserRepositoryService.saveUser [] johnDoeRecord).1
          janeRecord).1
        = (UserRepositoryService.saveUser [] janeRecord).1 ∧
      storageGet (UserRepositoryService.saveUser
          (UserRepositoryService.saveUser [] johnDoeRecord).1 janeRecord).1 LSuserDetailsKey
        = some (serializedForStore janeRecord)) :=
  ⟨rfl, rfl, C4_lastWriteWins [] johnDoeRecord janeRecord rfl rfl⟩

/-- **C5**: the Controller and Service layers are pure pass-throughs: for
every store and record they produce exactly the Repository's store and return
value, and the read path returns exactly the Repository's read result. -/
theorem C5_layers_transparent (st : Store) (R : JSValue) :
    UserController.saveUserData st R = UserRepositoryService.saveUser st R ∧
    BussinessService.saveUser st R = UserRepositoryService.saveUser st R ∧
    UserController.getAllUserData st = UserRepositoryService.getAllUsers st ∧
    BussinessService.getAllUsers st = UserRepositoryService.getAllUsers st :=
  ⟨rfl, rfl, rfl, rfl⟩

/-- **C6**: on a fresh store with no prior save, `getAllUsers` returns the
null indicator (and, being a total function of the store, throws nothing). -/
theorem C6_fresh_getAllUsers : UserRepositoryService.getAllUsers ([] : Store) = .vNull := rfl

/-- **C7**: whenever a save serialized its record to the string `s`, a
following `getAllUsers` returns exactly `s` — the raw stored representation,
with no deserialization. -/
theorem C7_raw_stored (st : Store) (R : JSValue) (s : String)
    (h : jsonStringify R = .ok s) :
    UserRepositoryService.getAllUsers (UserRepositoryService.saveUser st R).1 = .vStr s := by
  revert h
  rw [jsonStringify]
  cases hv : serV R with
  | error e => intro h; simp at h
  | ok o =>
    cases o with
    | none => intro h; simp at h
    | some cs =>
      intro h
      simp at h
      subst h
      have hne : (⟨cs⟩ : String) ≠ "" := fun he => serV_ok_ne_nil hv (congrArg String.data he)
      have hsave : UserRepositoryService.saveUser st R
          = (localStorage.setItem st LSuserDetailsKey (some ⟨cs⟩), true) := by
        rw [UserRepositoryService.saveUser, jsonStringify, hv]
      rw [hsave]
      show UserRepositoryService.getAllUsers
        (localStorage.setItem st LSuserDetailsKey (some ⟨cs⟩)) = .vStr ⟨cs⟩
      rw [UserRepositoryService.getAllUsers, getItem_setItem_some hne]

/-- Witness for C7 at the demo record on a fresh store. -/
theorem C7_raw_stored_witness :
    jsonStringify johnDoeRecord = .ok johnDoeJson ∧
    UserRepositoryService.getAllUsers
        (UserRepositoryService.saveUser [] johnDoeRecord).1 = .vStr johnDoeJson :=
  ⟨rfl, C7_raw_stored [] johnDoeRecord johnDoeJson rfl⟩

/-- **C8**: every sequence of `saveUser`/`getAllUsers` operations from the
fresh store leaves the underlying map holding at most the single fixed key
`"LSuserDetails"` (at most one record), and every successful save overwrites
the stored value with the serialization of its record. -/
theorem C8_single_record_invariant :
    (∀ ops : List Op, runOps [] ops = [] ∨
      ∃ v, runOps [] ops = [(LSuserDetailsKey, v)]) ∧
    (∀ (st : Store) (R : JSValue), (UserRepositoryService.saveUser st R).2 = true →
      storageGet (UserRepositoryService.saveUser st R).1 LSuserDetailsKey
        = some (serializedForStore R)) := by
  constructor
  · intro ops
    exact runOps_inv ops [] (Or.inl rfl)
  · intro st R h
    cases hj : jsonStringify R with
    | thrown => simp [UserRepositoryService.saveUser, hj] at h
    | ok s => simp [UserRepositoryService.saveUser, hj, localStorage.setItem,
        storageGet_storageSet_self, serializedForStore]
    | undef => simp [UserRepositoryService.saveUser, hj, localStorage.setItem,
        storageGet_storageSet_self, serializedForStore]

/-- Witness for C8's overwrite component at a concrete successful save. -/
theorem C8_single_record_invariant_witness :
    (UserRepositoryService.saveUser [] janeRecord).2 = true ∧
    storageGet (UserRepositoryService.saveUser [] janeRecord).1 LSuserDetailsKey
      = some (serializedForStore janeRecord) :=
  ⟨rfl, C8_single_record_invariant.2 [] janeRecord rfl⟩

/-- **C9**: on every input whose JSON serialization is `undefined` (such as
`undefined` itself or a bare function value), `saveUser` reports success
(`true`), yet an immediately following `getAllUsers` returns `null` — nothing
retrievable was stored. -/
theorem C9_undefined_serialization (st : Store) (R : JSValue)
    (h : jsonStringify R = .undef) :
    (UserRepositoryService.saveUser st R).2 = true ∧
    UserRepositoryService.getAllUsers (UserRepositoryService.saveUser st R).1 = .vNull := by
  have hsave : UserRepositoryService.saveUser st R
      = (localStorage.setItem st LSuserDetailsKey none, true) := by
    rw [UserRepositoryService.saveUser, h]
  refine ⟨by rw [hsave], ?_⟩
  rw [hsave]
  show UserRepositoryService.getAllUsers
    (localStorage.setItem st LSuserDetailsKey none) = .vNull
  rw [UserRepositoryService.getAllUsers, getItem_setItem_none]

/-- Witness for C9 at `undefined` on a fresh store. -/
theorem C9_undefined_serialization_witness :
    jsonStringify .vUndefined = .undef ∧
    ((UserRepositoryService.saveUser [] .vUndefined).2 = true ∧
      UserRepositoryService.getAllUsers
        (UserRepositoryService.saveUser [] .vUndefined).1 = .vNull) :=
  ⟨rfl, C9_undefined_serialization [] .vUndefined rfl⟩

/-- **C10**: the mock store's `getItem` coerces every falsy stored value to
`null`: when the stored value under a key is the empty string, `getItem`
returns `null` — indistinguishable from the fresh store, on which `getItem`
also returns `null` for every key. -/
theorem C10_empty_string_coerced :
    (∀ (st : Store) (key : String), storageGet st key = some (some "") →
      localStorage.getItem st key = none) ∧
    (∀ key : String, localStorage.getItem ([] : Store) key = none) := by
  constructor
  · intro st key h
    rw [localStorage.getItem, h]
    rfl
  · intro key
    rfl

/-- Witness for C10 at a store holding the empty string. -/
theorem C10_empty_string_coerced_witness :
    storageGet [("k", some "")] "k" = some (some "") ∧
    localStorage.getItem [("k", some "")] "k" = none :=
  ⟨rfl, C10_empty_string_coerced.1 [("k", some "")] "k" rfl⟩
